import Mathlib

/-!
Verification of the numeric utilities in `imitation/util/util.py` and
`imitation/util/networks.py`: sum-preserving integer rounding (`oric`),
the running-statistics normalizers (`RunningNorm`, `EMANorm`), chunked
norms (`tensor_iter_norm`), k-NN state entropy (`compute_state_entropy`)
and seed generation (`make_seeds`).

The vector code is embedded over `ℚ` (exact arithmetic); `ℝ` is used
where the code takes square roots or real powers (Euclidean distances,
`p`-norms).  Feature dimensions are modelled by an index type `ι`, and a
batch of shape `(B, F)` by a `List (ι → ℚ)` of its rows.
-/

namespace ImitationUtil

/-- Embedding of `np.round` on a rational scalar: round half to even
(the IEEE rounding mode used by numpy), producing an integer. -/
def npRound (q : ℚ) : ℤ :=
  if Int.fract q < 1 / 2 then ⌊q⌋
  else if 1 / 2 < Int.fract q then ⌊q⌋ + 1
  else if 2 ∣ ⌊q⌋ then ⌊q⌋ else ⌊q⌋ + 1

/-- The vector `x - np.floor(x)` of fractional shortfalls computed by `oric`. -/
def shortfallList (x : List ℚ) : List ℚ :=
  x.map (fun v => v - ⌊v⌋)

/-- The integer `total_shortfall = np.round(shortfall.sum())` computed by
`oric`, as a natural number (it is always nonnegative, since every
shortfall lies in `[0, 1)`). -/
def oricK (x : List ℚ) : ℕ :=
  (npRound (shortfallList x).sum).toNat

/-- The index permutation `indices = np.argsort(-shortfall)` computed by
`oric`: the indices `0, ..., n-1` sorted by decreasing shortfall.
`np.argsort` uses an unspecified deterministic tie-break; we model it with
a stable merge sort, which is one such deterministic choice. -/
def oricIdx (x : List ℚ) : List ℕ :=
  (List.range x.length).mergeSort
    (fun i j => decide ((shortfallList x).getD j 0 ≤ (shortfallList x).getD i 0))

/-- The set (as a list) `indices[:total_shortfall]` of positions whose
floor gets incremented by `oric`. -/
def oricSel (x : List ℚ) : List ℕ :=
  (oricIdx x).take (oricK x)

/-- Embedding of `oric` from `imitation/util/util.py`: floor every
element, compute the fractional shortfalls, round their sum to the
integer `total_shortfall`, and increment the floors of the
`total_shortfall` indices of largest shortfall.  The fancy-indexed
in-place `rounded[indices[:total_shortfall]] += 1` adds one exactly at
the positions listed in `indices[:total_shortfall]` (which are pairwise
distinct, being drawn from a permutation of `0, ..., n-1`). -/
def oric (x : List ℚ) : List ℤ :=
  let rounded : List ℤ := x.map (fun v => ⌊v⌋)
  let total_shortfall : ℕ := oricK x
  let indices : List ℕ := oricIdx x
  rounded.mapIdx (fun i v => if i ∈ indices.take total_shortfall then v + 1 else v)

theorem npRound_intCast (m : ℤ) : npRound (m : ℚ) = m := by
  simp [npRound, Int.fract_intCast]

theorem length_oric (x : List ℚ) : (oric x).length = x.length := by
  simp [oric]

theorem length_oricIdx (x : List ℚ) : (oricIdx x).length = x.length := by
  simp [oricIdx, List.length_mergeSort]

theorem oricIdx_perm (x : List ℚ) : (oricIdx x).Perm (List.range x.length) :=
  List.mergeSort_perm _ _

theorem mem_oricIdx (x : List ℚ) (i : ℕ) : i ∈ oricIdx x ↔ i < x.length := by
  rw [(oricIdx_perm x).mem_iff, List.mem_range]

theorem oricIdx_nodup (x : List ℚ) : (oricIdx x).Nodup :=
  ((oricIdx_perm x).symm).nodup (List.nodup_range _)

theorem mem_oricSel_lt (x : List ℚ) (i : ℕ) (h : i ∈ oricSel x) : i < x.length := by
  rw [← mem_oricIdx]
  exact List.mem_of_mem_take h

/-- Entry-level description of `oric`: position `i` holds `⌊x i⌋`, plus one
when `i` was selected to absorb a unit of shortfall. -/
theorem oric_getD (x : List ℚ) (i : ℕ) (h : i < x.length) :
    (oric x).getD i 0 = ⌊x.getD i 0⌋ + (if i ∈ oricSel x then 1 else 0) := by
  have h1 : i < (oric x).length := by rw [length_oric]; exact h
  rw [List.getD_eq_getElem _ _ h1, List.getD_eq_getElem _ _ h]
  simp only [oric, oricSel, List.getElem_mapIdx, List.getElem_map]
  split <;> simp

/-- Claim C8: `oric` applied to a vector whose entries are already
integers returns it unchanged (after casting the integer result back to
the rational vector). -/
theorem oric_integer_identity (x : List ℚ) (h : ∀ v ∈ x, ∃ k : ℤ, v = (k : ℚ)) :
    (oric x).map (fun (k : ℤ) => (k : ℚ)) = x := by
  have hsf : ∀ v ∈ x, v - (⌊v⌋ : ℚ) = 0 := by
    intro v hv
    obtain ⟨k, rfl⟩ := h v hv
    simp
  have hsum : (shortfallList x).sum = 0 := by
    apply List.sum_eq_zero
    intro q hq
    simp only [shortfallList, List.mem_map] at hq
    obtain ⟨v, hv, rfl⟩ := hq
    exact hsf v hv
  have h0 : npRound (0 : ℚ) = 0 := by
    have h00 := npRound_intCast 0
    simpa using h00
  have hK : oricK x = 0 := by
    simp [oricK, hsum, h0]
  have hfl : oric x = x.map (fun v => ⌊v⌋) := by
    apply List.ext_getElem
    · simp [length_oric]
    · intro i h1 h2
      have hi : i < x.length := by simpa using h2
      have hsel : i ∉ oricSel x := by simp [oricSel, hK]
      have hD := oric_getD x i hi
      rw [List.getD_eq_getElem _ _ h1, List.getD_eq_getElem _ _ hi] at hD
      rw [hD, if_neg hsel, List.getElem_map, add_zero]
  conv_rhs => rw [← List.map_id x]
  rw [hfl, List.map_map]
  apply List.map_congr_left
  intro v hv
  obtain ⟨k, rfl⟩ := h v hv
  simp

/-- Witness for C8 at a concrete integer vector. -/
theorem oric_integer_identity_witness :
    (∀ v ∈ [(2 : ℚ), -5, 0], ∃ k : ℤ, v = (k : ℚ)) ∧
      (oric [(2 : ℚ), -5, 0]).map (fun (k : ℤ) => (k : ℚ)) = [(2 : ℚ), -5, 0] := by
  have h : ∀ v ∈ [(2 : ℚ), -5, 0], ∃ k : ℤ, v = (k : ℚ) := by
    intro v hv
    simp only [List.mem_cons, List.not_mem_nil, or_false] at hv
    rcases hv with rfl | rfl | rfl
    · exact ⟨2, by norm_num⟩
    · exact ⟨-5, by norm_num⟩
    · exact ⟨0, by norm_num⟩
  exact ⟨h, oric_integer_identity _ h⟩

variable {ι : Type}

/-- Buffer state of a `BaseNorm` layer from `imitation/util/networks.py`:
per-feature running mean and variance plus a sample count. -/
@[ext]
structure NormState (ι : Type) where
  running_mean : ι → ℚ
  running_var : ι → ℚ
  count : ℕ

/-- `BaseNorm.reset_running_stats`: mean 0, variance 1, count 0
(the identity transformation). -/
def resetState (ι : Type) : NormState ι :=
  ⟨fun _ => 0, fun _ => 1, 0⟩

/-- `th.mean(batch, dim=0)` for a batch given as the list of its rows. -/
def batchMean (batch : List (ι → ℚ)) : ι → ℚ :=
  fun i => (batch.map (fun row => row i)).sum / batch.length

/-- `th.var(batch, dim=0, unbiased=False)`: per-feature population
variance of the batch. -/
def batchVar (batch : List (ι → ℚ)) : ι → ℚ :=
  fun i => (batch.map (fun row => (row i - batchMean batch i) ^ 2)).sum / batch.length

/-- Embedding of `RunningNorm.update_stats`: the in-place sequence
`mean += delta*batch_count/tot_count`, `var *= count`,
`var += batch_var*batch_count`, `var += delta^2*count*batch_count/tot_count`,
`var /= tot_count`, `count += batch_count`. -/
def runningNormUpdate (s : NormState ι) (batch : List (ι → ℚ)) : NormState ι :=
  let batch_mean := batchMean batch
  let batch_var := batchVar batch
  let batch_count : ℕ := batch.length
  let delta := fun i => batch_mean i - s.running_mean i
  let tot_count : ℕ := s.count + batch_count
  let mean := fun i => s.running_mean i + delta i * batch_count / tot_count
  let var1 := fun i => s.running_var i * s.count
  let var2 := fun i => var1 i + batch_var i * batch_count
  let var3 := fun i => var2 i + delta i ^ 2 * s.count * batch_count / tot_count
  let var4 := fun i => var3 i / tot_count
  ⟨mean, var4, tot_count⟩

/-- The exact aggregate statistics of a data set: its mean, population
variance, and size.  This is what the cumulative normalizer is meant to
track. -/
def statsOf (d : List (ι → ℚ)) : NormState ι :=
  ⟨batchMean d, batchVar d, d.length⟩

/-- Scalar mean of a list of rationals. -/
def listMean (l : List ℚ) : ℚ :=
  l.sum / l.length

/-- Scalar population variance of a list of rationals. -/
def listVar (l : List ℚ) : ℚ :=
  (l.map (fun v => (v - listMean l) ^ 2)).sum / l.length

theorem batchMean_eq (d : List (ι → ℚ)) (i : ι) :
    batchMean d i = listMean (d.map (fun row => row i)) := by
  simp [batchMean, listMean]

theorem batchVar_eq (d : List (ι → ℚ)) (i : ι) :
    batchVar d i = listVar (d.map (fun row => row i)) := by
  simp only [batchVar, listVar, List.map_map, List.length_map]
  rw [← batchMean_eq]
  rfl

theorem sq_dev_sum (l : List ℚ) (m : ℚ) :
    (l.map (fun v => (v - m) ^ 2)).sum
      = (l.map (fun v => v ^ 2)).sum - 2 * m * l.sum + l.length * m ^ 2 := by
  induction l with
  | nil => simp
  | cons a t ih =>
      simp only [List.map_cons, List.sum_cons, List.length_cons, ih]
      push_cast
      ring

theorem length_cast_ne_zero {α : Type} (l : List α) (h : l ≠ []) :
    ((l.length : ℚ)) ≠ 0 := by
  have := List.length_pos.mpr h
  positivity

/-- Population variance as a second moment: `Var = E[x²] - mean²`. -/
theorem listVar_eq_sq_mean (l : List ℚ) (h : l ≠ []) :
    listVar l = (l.map (fun v => v ^ 2)).sum / l.length - listMean l ^ 2 := by
  have hn := length_cast_ne_zero l h
  unfold listVar listMean
  rw [sq_dev_sum]
  field_simp
  ring

/-- Chan et al. combination: the mean-update formula turns the aggregate
mean of `u` into the aggregate mean of `u ++ w`. -/
theorem chan_mean (u w : List ℚ) (hu : u ≠ []) (hw : w ≠ []) :
    listMean u + (listMean w - listMean u) * w.length / (u.length + w.length)
      = listMean (u ++ w) := by
  have hnu := length_cast_ne_zero u hu
  have hnw := length_cast_ne_zero w hw
  have hnuw : ((u.length : ℚ)) + w.length ≠ 0 := by positivity
  unfold listMean
  rw [List.sum_append, List.length_append]
  push_cast
  field_simp
  ring

/-- Chan et al. combination: the variance-update formula turns the
aggregate variance of `u` into the aggregate variance of `u ++ w`. -/
theorem chan_var (u w : List ℚ) (hu : u ≠ []) (hw : w ≠ []) :
    (listVar u * u.length + listVar w * w.length
        + (listMean w - listMean u) ^ 2 * u.length * w.length / (u.length + w.length))
        / (u.length + w.length)
      = listVar (u ++ w) := by
  have hnu := length_cast_ne_zero u hu
  have hnw := length_cast_ne_zero w hw
  have hnuw : ((u.length : ℚ)) + w.length ≠ 0 := by positivity
  rw [listVar_eq_sq_mean u hu, listVar_eq_sq_mean w hw,
    listVar_eq_sq_mean (u ++ w) (by simp [hu])]
  unfold listMean
  simp only [List.sum_append, List.length_append, List.map_append]
  push_cast
  field_simp
  ring

/-- Claim C2: a single `RunningNorm.update_stats` call realizes exactly
the Chan et al. combination formula on (mean, var, count), and when the
prior count is zero the result is exactly the batch statistics,
regardless of the initial running mean and variance. -/
theorem runningNorm_update_chan (s : NormState ι) (batch : List (ι → ℚ))
    (hb : batch ≠ []) :
    (runningNormUpdate s batch).running_mean
        = (fun i => s.running_mean i
            + (batchMean batch i - s.running_mean i) * batch.length
              / ((s.count : ℚ) + batch.length))
      ∧ (runningNormUpdate s batch).running_var
        = (fun i => (s.running_var i * s.count + batchVar batch i * batch.length
            + (batchMean batch i - s.running_mean i) ^ 2 * s.count * batch.length
              / ((s.count : ℚ) + batch.length))
            / ((s.count : ℚ) + batch.length))
      ∧ (runningNormUpdate s batch).count = s.count + batch.length
      ∧ (s.count = 0 → runningNormUpdate s batch = statsOf batch) := by
  have hn := length_cast_ne_zero batch hb
  refine ⟨?_, ?_, rfl, ?_⟩
  · funext i
    show s.running_mean i + _ * ((batch.length : ℕ) : ℚ) / ((s.count + batch.length : ℕ) : ℚ) = _
    push_cast
    ring
  · funext i
    show (s.running_var i * s.count + _ + _) / ((s.count + batch.length : ℕ) : ℚ) = _
    push_cast
    ring
  · intro h0
    ext i
    · show s.running_mean i + (batchMean batch i - s.running_mean i)
          * ((batch.length : ℕ) : ℚ) / ((s.count + batch.length : ℕ) : ℚ) = batchMean batch i
      rw [h0]
      push_cast
      field_simp
    · show (s.running_var i * (s.count : ℚ) + batchVar batch i * batch.length
          + (batchMean batch i - s.running_mean i) ^ 2 * s.count * batch.length
            / ((s.count + batch.length : ℕ) : ℚ)) / ((s.count + batch.length : ℕ) : ℚ)
          = batchVar batch i
      rw [h0]
      push_cast
      field_simp
    · show s.count + batch.length = batch.length
      rw [h0, Nat.zero_add]

/-- Concrete two-row, one-feature batch used by the C2 witness. -/
def c2batch : List (Unit → ℚ) :=
  [fun _ => 2, fun _ => 4]

/-- Witness for C2 at a concrete one-feature state and two-row batch. -/
theorem runningNorm_update_chan_witness :
    (c2batch ≠ [])
      ∧ ((runningNormUpdate (resetState Unit) c2batch).running_mean
          = (fun i => (resetState Unit).running_mean i
              + (batchMean c2batch i - (resetState Unit).running_mean i)
                * c2batch.length
                / (((resetState Unit).count : ℚ) + c2batch.length))
        ∧ (runningNormUpdate (resetState Unit) c2batch).running_var
          = (fun i => ((resetState Unit).running_var i * (resetState Unit).count
              + batchVar c2batch i * c2batch.length
              + (batchMean c2batch i - (resetState Unit).running_mean i) ^ 2
                * (resetState Unit).count * c2batch.length
                / (((resetState Unit).count : ℚ) + c2batch.length))
              / (((resetState Unit).count : ℚ) + c2batch.length))
        ∧ (runningNormUpdate (resetState Unit) c2batch).count
            = (resetState Unit).count + c2batch.length
        ∧ ((resetState Unit).count = 0 →
            runningNormUpdate (resetState Unit) c2batch = statsOf c2batch)) :=
  ⟨by simp [c2batch], runningNorm_update_chan (resetState Unit) c2batch (by simp [c2batch])⟩

/-- Updating from a zero count installs exactly the batch statistics,
whatever the initial mean and variance buffers hold. -/
theorem update_count_zero (s : NormState ι) (b : List (ι → ℚ)) (h0 : s.count = 0)
    (hb : b ≠ []) : runningNormUpdate s b = statsOf b := by
  have hn := length_cast_ne_zero b hb
  ext i
  · show s.running_mean i + (batchMean b i - s.running_mean i)
        * ((b.length : ℕ) : ℚ) / ((s.count + b.length : ℕ) : ℚ) = batchMean b i
    rw [h0]
    push_cast
    field_simp
  · show (s.running_var i * (s.count : ℚ) + batchVar b i * b.length
        + (batchMean b i - s.running_mean i) ^ 2 * s.count * b.length
          / ((s.count + b.length : ℕ) : ℚ)) / ((s.count + b.length : ℕ) : ℚ)
        = batchVar b i
    rw [h0]
    push_cast
    field_simp
  · show s.count + b.length = b.length
    rw [h0, Nat.zero_add]

/-- Updating the exact aggregate of `d` with a batch `b` produces the
exact aggregate of `d ++ b` (Chan et al. combination, vector form). -/
theorem update_statsOf (d b : List (ι → ℚ)) (hd : d ≠ []) (hb : b ≠ []) :
    runningNormUpdate (statsOf d) b = statsOf (d ++ b) := by
  ext i
  · show batchMean d i + (batchMean b i - batchMean d i)
        * ((b.length : ℕ) : ℚ) / ((d.length + b.length : ℕ) : ℚ) = batchMean (d ++ b) i
    have hu : d.map (fun row => row i) ≠ [] := by simpa using hd
    have hw : b.map (fun row => row i) ≠ [] := by simpa using hb
    have hc := chan_mean (d.map (fun row => row i)) (b.map (fun row => row i)) hu hw
    simp only [List.length_map] at hc
    rw [batchMean_eq d, batchMean_eq b, batchMean_eq (d ++ b), List.map_append]
    push_cast
    exact hc
  · show (batchVar d i * (d.length : ℚ) + batchVar b i * b.length
        + (batchMean b i - batchMean d i) ^ 2 * d.length * b.length
          / ((d.length + b.length : ℕ) : ℚ)) / ((d.length + b.length : ℕ) : ℚ)
        = batchVar (d ++ b) i
    have hu : d.map (fun row => row i) ≠ [] := by simpa using hd
    have hw : b.map (fun row => row i) ≠ [] := by simpa using hb
    have hc := chan_var (d.map (fun row => row i)) (b.map (fun row => row i)) hu hw
    simp only [List.length_map] at hc
    rw [batchVar_eq d, batchVar_eq b, batchVar_eq (d ++ b),
      batchMean_eq d, batchMean_eq b, List.map_append]
    push_cast
    exact hc
  · show d.length + b.length = (d ++ b).length
    rw [List.length_append]

theorem foldl_statsOf (rest : List (List (ι → ℚ))) :
    ∀ d : List (ι → ℚ), d ≠ [] → (∀ b ∈ rest, b ≠ []) →
      List.foldl runningNormUpdate (statsOf d) rest = statsOf (d ++ rest.flatten) := by
  induction rest with
  | nil =>
      intro d _ _
      simp
  | cons r rs ih =>
      intro d hd hall
      have hr : r ≠ [] := hall r (by simp)
      rw [List.foldl_cons, update_statsOf d r hd hr,
        ih (d ++ r) (by simp [hd]) (fun q hq => hall q (by simp [hq])),
        List.flatten_cons, List.append_assoc]

/-- Claim C3: feeding any decomposition of a data set into non-empty
sub-batches sequentially through `RunningNorm.update_stats`, starting
from the reset state, yields exactly the mean and population variance of
the concatenated data — independent of the split. -/
theorem runningNorm_split_invariance (bs : List (List (ι → ℚ))) (hne : bs ≠ [])
    (hall : ∀ b ∈ bs, b ≠ []) :
    (List.foldl runningNormUpdate (resetState ι) bs).running_mean
        = batchMean bs.flatten
      ∧ (List.foldl runningNormUpdate (resetState ι) bs).running_var
        = batchVar bs.flatten
      ∧ (List.foldl runningNormUpdate (resetState ι) bs).count
        = bs.flatten.length := by
  obtain ⟨b, rest, rfl⟩ := List.exists_cons_of_ne_nil hne
  have hb : b ≠ [] := hall b (by simp)
  have key : List.foldl runningNormUpdate (resetState ι) (b :: rest)
      = statsOf ((b :: rest).flatten) := by
    rw [List.foldl_cons, update_count_zero (resetState ι) b rfl hb,
      foldl_statsOf rest b hb (fun q hq => hall q (by simp [hq])),
      List.flatten_cons]
  rw [key]
  exact ⟨rfl, rfl, rfl⟩

/-- Concrete split of a three-row data set used by the C3 witness. -/
def c3batches : List (List (Unit → ℚ)) :=
  [[fun _ => 1], [fun _ => 3, fun _ => 5]]

/-- Witness for C3 at a concrete split of a data set into two sub-batches. -/
theorem runningNorm_split_invariance_witness :
    (c3batches ≠ [] ∧ ∀ b ∈ c3batches, b ≠ [])
      ∧ ((List.foldl runningNormUpdate (resetState Unit) c3batches).running_mean
          = batchMean c3batches.flatten
        ∧ (List.foldl runningNormUpdate (resetState Unit) c3batches).running_var
          = batchVar c3batches.flatten
        ∧ (List.foldl runningNormUpdate (resetState Unit) c3batches).count
          = c3batches.flatten.length) := by
  have h1 : c3batches ≠ [] := by simp [c3batches]
  have h2 : ∀ b ∈ c3batches, b ≠ [] := by
    intro b hb
    simp only [c3batches, List.mem_cons, List.not_mem_nil, or_false] at hb
    rcases hb with rfl | rfl <;> simp
  exact ⟨⟨h1, h2⟩, runningNorm_split_invariance c3batches h1 h2⟩

/-- Embedding of `EMANorm.__init__`: `BaseNorm.__init__` resets the
buffers, then the decay is validated; `decay` outside the open interval
`(0, 1)` raises `ValueError("decay must be between 0 and 1")`.  Only the
buffer state is returned; `decay` and `decay_within_batch` are passed
explicitly to the update function below. -/
def emaNormInit (ι : Type) (decay : ℚ) : Except String (NormState ι) :=
  if ¬(0 < decay ∧ decay < 1) then Except.error "decay must be between 0 and 1"
  else Except.ok (resetState ι)

/-- The weight column computed by `EMANorm.update_stats`:
`th.vander(th.tensor([decay]), N=b_size).T`, i.e. the geometric
progression `decay^(B-1), ..., decay, 1` under within-batch decay, and
`th.ones((b_size, 1)) / b_size` otherwise. -/
def emaWeights (decay : ℚ) (dwb : Bool) (b_size : ℕ) : List ℚ :=
  if dwb then (List.range b_size).map (fun i => decay ^ (b_size - 1 - i))
  else List.replicate b_size (1 / (b_size : ℚ))

/-- The `count == 0` branch of `EMANorm.update_stats`: statistics are
initialized directly from the weighted batch.  Under within-batch decay
the weights past the first are scaled by `alpha` so they sum to 1; with a
single row the variance buffer is set to `th.zeros_like(running_mean)`. -/
def emaUpdateFirst (decay : ℚ) (dwb : Bool) (s : NormState ι)
    (batch : List (ι → ℚ)) : NormState ι :=
  let b_size : ℕ := batch.length
  let weights : List ℚ := emaWeights decay dwb b_size
  let alpha : ℚ := 1 - decay
  let weights1 : List ℚ :=
    if dwb then weights.mapIdx (fun i w => if i = 0 then w else w * alpha)
    else weights
  let mean : ι → ℚ := fun i => (List.zipWith (fun w row => w * row i) weights1 batch).sum
  let var : ι → ℚ :=
    if 1 < b_size then
      fun i => (List.zipWith (fun w row => w * (row i - mean i) ^ 2) weights1 batch).sum
    else fun _ => 0
  ⟨mean, var, s.count + b_size⟩

/-- The `count > 0` branch of `EMANorm.update_stats`: the prior aggregate
keeps weight `running_weight` (`decay`, or `decay * weights[0]` under
within-batch decay), the batch weights are scaled by `alpha`, and the
variance is maintained through `E[x²] = var + mean²`. -/
def emaUpdateLater (decay : ℚ) (dwb : Bool) (s : NormState ι)
    (batch : List (ι → ℚ)) : NormState ι :=
  let b_size : ℕ := batch.length
  let weights : List ℚ := emaWeights decay dwb b_size
  let alpha : ℚ := 1 - decay
  let running_weight : ℚ := if dwb then decay * weights.getD 0 0 else decay
  let weights2 : List ℚ := weights.map (fun w => w * alpha)
  let var1 : ι → ℚ := fun i => running_weight * (s.running_var i + s.running_mean i ^ 2)
  let weighted_batch : List (ι → ℚ) :=
    List.zipWith (fun w row => fun i => w * row i) weights2 batch
  let weighted_batch_mean : ι → ℚ := fun i => (weighted_batch.map (fun r => r i)).sum
  let mean : ι → ℚ := fun i => s.running_mean i * running_weight + weighted_batch_mean i
  let var2 : ι → ℚ := fun i =>
    var1 i + (List.zipWith (fun wrow row => wrow i * row i) weighted_batch batch).sum
  let var3 : ι → ℚ := fun i => var2 i - mean i ^ 2
  ⟨mean, var3, s.count + b_size⟩

/-- Embedding of `EMANorm.update_stats` on a batch given as its list of
rows (the 1-D-input reshape to `(B, 1)` is subsumed by the row
representation): dispatch on `count == 0`. -/
def emaNormUpdate (decay : ℚ) (dwb : Bool) (s : NormState ι)
    (batch : List (ι → ℚ)) : NormState ι :=
  if s.count = 0 then emaUpdateFirst decay dwb s batch
  else emaUpdateLater decay dwb s batch

/-- The normalization applied by `BaseNorm.forward` (after any statistics
update): `(x - running_mean) / th.sqrt(running_var + eps)`. -/
noncomputable def normForward (s : NormState ι) (eps : ℚ) (x : ι → ℚ) : ι → ℝ :=
  fun i => ((x i : ℝ) - (s.running_mean i : ℝ)) / Real.sqrt ((s.running_var i : ℝ) + (eps : ℝ))

/-- Claim C6: constructing an `EMANorm` fails with `ValueError` exactly
when `decay` lies outside the open interval `(0, 1)`, and succeeds (with
reset buffers) for every `decay` strictly between 0 and 1. -/
theorem emaNorm_init_decay_check (decay : ℚ) :
    (emaNormInit Unit decay = Except.error "decay must be between 0 and 1"
        ↔ (decay ≤ 0 ∨ 1 ≤ decay))
      ∧ (0 < decay → decay < 1 → emaNormInit Unit decay = Except.ok (resetState Unit)) := by
  constructor
  · by_cases h : 0 < decay ∧ decay < 1
    · rw [emaNormInit, if_neg (not_not_intro h)]
      constructor
      · intro habs
        exact absurd habs (by simp)
      · intro hor
        exfalso
        rcases hor with h1 | h1
        · linarith [h.1]
        · linarith [h.2]
    · rw [emaNormInit, if_pos h]
      constructor
      · intro _
        by_contra hc
        push_neg at hc
        exact h hc
      · intro _
        rfl
  · intro h1 h2
    rw [emaNormInit, if_neg (not_not_intro ⟨h1, h2⟩)]

/-- Witness for C6: success at `decay = 1/2` and failure at `decay = -1`. -/
theorem emaNorm_init_decay_check_witness :
    emaNormInit Unit (1 / 2) = Except.ok (resetState Unit)
      ∧ emaNormInit Unit (-1) = Except.error "decay must be between 0 and 1" :=
  ⟨(emaNorm_init_decay_check (1 / 2)).2 (by norm_num) (by norm_num),
    (emaNorm_init_decay_check (-1)).1.mpr (Or.inl (by norm_num))⟩

theorem zipWith_replicate_left {α β γ : Type} (f : α → β → γ) (c : α) (l : List β) :
    List.zipWith f (List.replicate l.length c) l = l.map (f c) := by
  induction l with
  | nil => simp
  | cons a t ih => simp [List.replicate_succ, ih]

/-- Claim C4: with uniform within-batch weights and a non-trivial prior
(`count > 0`), `EMANorm.update_stats` moves the mean to
`decay * mean₀ + (1-decay) * batch_mean` and maintains the variance
through the second moment: `var' = decay*(var₀+mean₀²)
+ ((1-decay)/B)·Σ xᵢ² - mean'²`. -/
theorem emaNorm_update_uniform (decay : ℚ) (s : NormState ι) (batch : List (ι → ℚ))
    (hc : 0 < s.count) (hb : batch ≠ []) :
    (emaNormUpdate decay false s batch).running_mean
        = (fun i => decay * s.running_mean i + (1 - decay) * batchMean batch i)
      ∧ (emaNormUpdate decay false s batch).running_var
        = (fun i => decay * (s.running_var i + s.running_mean i ^ 2)
            + ((1 - decay) / batch.length) * (batch.map (fun row => row i ^ 2)).sum
            - (decay * s.running_mean i + (1 - decay) * batchMean batch i) ^ 2)
      ∧ (emaNormUpdate decay false s batch).count = s.count + batch.length := by
  have hn := length_cast_ne_zero batch hb
  have hc0 : ¬ s.count = 0 := by omega
  have hupd : emaNormUpdate decay false s batch = emaUpdateLater decay false s batch := by
    rw [emaNormUpdate, if_neg hc0]
  have hwb : List.zipWith (fun w row => fun i : ι => w * row i)
      ((emaWeights decay false batch.length).map (fun w => w * (1 - decay))) batch
      = batch.map (fun row => fun i => (1 / (batch.length : ℚ) * (1 - decay)) * row i) := by
    rw [emaWeights, if_neg (by simp), List.map_replicate, zipWith_replicate_left]
  have hmean : (emaUpdateLater decay false s batch).running_mean
      = (fun i => decay * s.running_mean i + (1 - decay) * batchMean batch i) := by
    funext i
    show s.running_mean i
          * (if false then decay * (emaWeights decay false batch.length).getD 0 0 else decay)
        + ((List.zipWith (fun w row => fun j : ι => w * row j)
            ((emaWeights decay false batch.length).map (fun w => w * (1 - decay))) batch).map
              (fun r => r i)).sum
        = decay * s.running_mean i + (1 - decay) * batchMean batch i
    rw [if_neg (by simp), hwb, List.map_map]
    show s.running_mean i * decay
        + (batch.map (fun row => (1 / (batch.length : ℚ) * (1 - decay)) * row i)).sum
        = decay * s.running_mean i + (1 - decay) * batchMean batch i
    rw [List.sum_map_mul_left, batchMean]
    ring
  have hvar : (emaUpdateLater decay false s batch).running_var
      = (fun i => decay * (s.running_var i + s.running_mean i ^ 2)
          + ((1 - decay) / batch.length) * (batch.map (fun row => row i ^ 2)).sum
          - (decay * s.running_mean i + (1 - decay) * batchMean batch i) ^ 2) := by
    funext i
    show (if false then decay * (emaWeights decay false batch.length).getD 0 0 else decay)
          * (s.running_var i + s.running_mean i ^ 2)
        + (List.zipWith (fun wrow row => wrow i * row i)
            (List.zipWith (fun w row => fun j : ι => w * row j)
              ((emaWeights decay false batch.length).map (fun w => w * (1 - decay))) batch)
            batch).sum
        - (s.running_mean i
              * (if false then decay * (emaWeights decay false batch.length).getD 0 0 else decay)
            + ((List.zipWith (fun w row => fun j : ι => w * row j)
                ((emaWeights decay false batch.length).map (fun w => w * (1 - decay))) batch).map
                  (fun r => r i)).sum) ^ 2
        = decay * (s.running_var i + s.running_mean i ^ 2)
          + ((1 - decay) / batch.length) * (batch.map (fun row => row i ^ 2)).sum
          - (decay * s.running_mean i + (1 - decay) * batchMean batch i) ^ 2
    have hmi := congrFun hmean i
    show _ + _ - (emaUpdateLater decay false s batch).running_mean i ^ 2 = _
    rw [if_neg (by simp), hwb, hmi, List.zipWith_map_left, List.zipWith_same]
    have hsq : (batch.map (fun row =>
          (fun j : ι => (1 / (batch.length : ℚ) * (1 - decay)) * row j) i * row i)).sum
        = (1 / (batch.length : ℚ) * (1 - decay)) * (batch.map (fun row => row i ^ 2)).sum := by
      rw [← List.sum_map_mul_left]
      apply congrArg
      apply List.map_congr_left
      intro row _
      show (1 / (batch.length : ℚ) * (1 - decay)) * row i * row i = _
      ring
    rw [hsq, batchMean]
    ring
  rw [hupd]
  exact ⟨hmean, hvar, rfl⟩

/-- Concrete prior state used by the C4 witness. -/
def c4state : NormState Unit :=
  ⟨fun _ => 1, fun _ => 0, 1⟩

/-- Concrete single-row batch used by the C4 witness. -/
def c4batch : List (Unit → ℚ) :=
  [fun _ => 3]

/-- Witness for C4 at a concrete prior state and batch. -/
theorem emaNorm_update_uniform_witness :
    (0 < c4state.count ∧ c4batch ≠ [])
      ∧ ((emaNormUpdate (1 / 2) false c4state c4batch).running_mean
          = (fun i => (1 / 2) * c4state.running_mean i
              + (1 - 1 / 2) * batchMean c4batch i)
        ∧ (emaNormUpdate (1 / 2) false c4state c4batch).running_var
          = (fun i => (1 / 2) * (c4state.running_var i + c4state.running_mean i ^ 2)
              + ((1 - 1 / 2) / c4batch.length)
                * (c4batch.map (fun row => row i ^ 2)).sum
              - ((1 / 2) * c4state.running_mean i
                  + (1 - 1 / 2) * batchMean c4batch i) ^ 2)
        ∧ (emaNormUpdate (1 / 2) false c4state c4batch).count
            = c4state.count + c4batch.length) :=
  ⟨⟨by simp [c4state], by simp [c4batch]⟩,
    emaNorm_update_uniform (1 / 2) c4state c4batch (by simp [c4state]) (by simp [c4batch])⟩

/-- Claim C10: the first `EMANorm.update_stats` call (`count == 0`) on a
single-row batch installs the row as the mean, the exact zero vector as
the variance (not 1 and not `eps`), and count 1; the subsequent
normalization therefore rescales inputs by `1 / sqrt(eps)`. -/
theorem emaNorm_first_single (decay : ℚ) (dwb : Bool) (s : NormState ι) (row : ι → ℚ)
    (h0 : s.count = 0) :
    (emaNormUpdate decay dwb s [row]).running_mean = row
      ∧ (emaNormUpdate decay dwb s [row]).running_var = (fun _ => 0)
      ∧ (emaNormUpdate decay dwb s [row]).count = 1
      ∧ ∀ (eps : ℚ) (x : ι → ℚ),
          normForward (emaNormUpdate decay dwb s [row]) eps x
            = fun i => ((x i : ℝ) - (row i : ℝ)) / Real.sqrt (eps : ℝ) := by
  have hupd : emaNormUpdate decay dwb s [row] = emaUpdateFirst decay dwb s [row] := by
    rw [emaNormUpdate, if_pos h0]
  have hw1 : emaWeights decay dwb 1 = [1] := by
    cases dwb <;> simp [emaWeights]
  have hwAll : (if dwb then
        (emaWeights decay dwb 1).mapIdx (fun j w => if j = 0 then w else w * (1 - decay))
      else emaWeights decay dwb 1) = [1] := by
    cases dwb
    · simpa using hw1
    · rw [if_pos rfl, hw1, List.mapIdx_cons]
      simp
  have hmean : (emaUpdateFirst decay dwb s [row]).running_mean = row := by
    funext i
    show (List.zipWith (fun w r => w * r i)
        (if dwb then
            (emaWeights decay dwb 1).mapIdx (fun j w => if j = 0 then w else w * (1 - decay))
          else emaWeights decay dwb 1) [row]).sum = row i
    rw [hwAll]
    simp
  have hvar : (emaUpdateFirst decay dwb s [row]).running_var = (fun _ => 0) := by
    have hv := congrArg NormState.running_var hupd
    show _ = (fun _ : ι => (0 : ℚ))
    rw [emaUpdateFirst]
    simp
  have hcount : (emaUpdateFirst decay dwb s [row]).count = 1 := by
    show s.count + 1 = 1
    rw [h0]
  refine ⟨by rw [hupd, hmean], by rw [hupd, hvar], by rw [hupd, hcount], ?_⟩
  intro eps x
  funext i
  show ((x i : ℝ) - ((emaNormUpdate decay dwb s [row]).running_mean i : ℝ))
      / Real.sqrt (((emaNormUpdate decay dwb s [row]).running_var i : ℝ) + (eps : ℝ))
      = ((x i : ℝ) - (row i : ℝ)) / Real.sqrt (eps : ℝ)
  rw [hupd, hmean, hvar]
  norm_num

/-- Witness for C10 at a concrete decay, row and reset state. -/
theorem emaNorm_first_single_witness :
    (resetState Unit).count = 0
      ∧ ((emaNormUpdate (1 / 2) false (resetState Unit) [fun _ => 7]).running_mean
          = (fun _ => (7 : ℚ))
        ∧ (emaNormUpdate (1 / 2) false (resetState Unit) [fun _ => 7]).running_var
          = (fun _ => 0)
        ∧ (emaNormUpdate (1 / 2) false (resetState Unit) [fun _ => 7]).count = 1
        ∧ ∀ (eps : ℚ) (x : Unit → ℚ),
            normForward (emaNormUpdate (1 / 2) false (resetState Unit) [fun _ => 7]) eps x
              = fun i => ((x i : ℝ) - ((7 : ℚ) : ℝ)) / Real.sqrt (eps : ℝ)) :=
  ⟨rfl, emaNorm_first_single (1 / 2) false (resetState Unit) (fun _ => 7) rfl⟩

/-- Model of `numpy.random.Generator.integers(low, high, size)` with the
default exclusive upper bound: the generator itself is abstracted as an
arbitrary stream `g` of naturals, and each draw is reduced into the
half-open range `[low, high)` as numpy's contract guarantees. -/
def generatorIntegers (g : ℕ → ℕ) (low high : ℕ) (size : ℕ) : List ℕ :=
  (List.range size).map (fun i => low + g i % (high - low))

/-- Embedding of `make_seeds` from `imitation/util/util.py`: draw
`n if n is not None else 1` integers in `[0, (1 << 31) - 1)`, convert to
a list, and return the list (or its first element when `n` was not
supplied). -/
def make_seeds (g : ℕ → ℕ) (n : Option ℕ) : List ℕ ⊕ ℕ :=
  let seeds : List ℕ := generatorIntegers g 0 ((1 <<< 31) - 1) (n.getD 1)
  match n with
  | none => Sum.inr (seeds.getD 0 0)
  | some _ => Sum.inl seeds

/-- Claim C9: `make_seeds(rng, n)` returns exactly `n` seeds, each in
`[0, 2^31 - 2]`; the single-argument form returns one such seed as a
plain integer. -/
theorem make_seeds_spec (g : ℕ → ℕ) (n : ℕ) (hn : 1 ≤ n) :
    (∃ l : List ℕ, make_seeds g (some n) = Sum.inl l
        ∧ l.length = n ∧ ∀ s ∈ l, s ≤ 2 ^ 31 - 2)
      ∧ (∃ s : ℕ, make_seeds g none = Sum.inr s ∧ s ≤ 2 ^ 31 - 2) := by
  have hbound : ∀ i : ℕ, 0 + g i % ((1 <<< 31) - 1 - 0) ≤ 2 ^ 31 - 2 := by
    intro i
    have he : (1 <<< 31 : ℕ) - 1 - 0 = 2 ^ 31 - 1 := by norm_num [Nat.shiftLeft_eq]
    rw [he]
    have h := Nat.mod_lt (g i) (show 0 < 2 ^ 31 - 1 by norm_num)
    omega
  constructor
  · refine ⟨generatorIntegers g 0 ((1 <<< 31) - 1) n, rfl, by simp [generatorIntegers], ?_⟩
    intro s hs
    simp only [generatorIntegers, List.mem_map, List.mem_range] at hs
    obtain ⟨i, _, rfl⟩ := hs
    exact hbound i
  · refine ⟨(generatorIntegers g 0 ((1 <<< 31) - 1) 1).getD 0 0, rfl, ?_⟩
    show (0 + g 0 % ((1 <<< 31) - 1 - 0)) ≤ 2 ^ 31 - 2
    exact hbound 0

/-- Witness for C9 at a concrete generator stream and `n = 5`. -/
theorem make_seeds_spec_witness :
    1 ≤ 5
      ∧ ((∃ l : List ℕ, make_seeds (fun i => i * i + 3) (some 5) = Sum.inl l
          ∧ l.length = 5 ∧ ∀ s ∈ l, s ≤ 2 ^ 31 - 2)
        ∧ (∃ s : ℕ, make_seeds (fun i => i * i + 3) none = Sum.inr s ∧ s ≤ 2 ^ 31 - 2)) :=
  ⟨by norm_num, make_seeds_spec (fun i => i * i + 3) 5 (by norm_num)⟩

/-- `th.norm(t.flatten(), p=ord)` of a tensor chunk given as the list of
its entries: the `p`-norm `(Σ |x|^p)^(1/p)`. -/
noncomputable def tensorNorm (l : List ℝ) (p : ℝ) : ℝ :=
  ((l.map (fun v => |v| ^ p)).sum) ^ (1 / p)

/-- Embedding of `tensor_iter_norm` from `imitation/util/util.py`:
reject `ord = 0`, otherwise collect the per-chunk norms and return the
norm of the vector of norms. -/
noncomputable def tensor_iter_norm (chunks : List (List ℝ)) (p : ℝ) : Except String ℝ :=
  if p = 0 then Except.error "This function cannot compute p-norms for p=0."
  else Except.ok (tensorNorm (chunks.map (fun c => tensorNorm c p)) p)

theorem tensorNorm_nonneg (l : List ℝ) (p : ℝ) : 0 ≤ tensorNorm l p := by
  apply Real.rpow_nonneg
  apply List.sum_nonneg
  intro a ha
  simp only [List.mem_map] at ha
  obtain ⟨v, _, rfl⟩ := ha
  exact Real.rpow_nonneg (abs_nonneg v) p

/-- Claim C7: for `p ≥ 1` (so in particular `p ≠ 0`) and a non-empty list
of chunks, `tensor_iter_norm` equals the `p`-norm of the concatenation of
all chunks: the norm of the per-chunk norms is the norm of the
concatenated vector. -/
theorem tensor_iter_norm_concat (chunks : List (List ℝ)) (p : ℝ) (hp : 1 ≤ p)
    (hc : chunks ≠ []) :
    tensor_iter_norm chunks p = Except.ok (tensorNorm chunks.flatten p) := by
  have hp0 : p ≠ 0 := by intro h; rw [h] at hp; linarith
  rw [tensor_iter_norm, if_neg hp0]
  apply congrArg
  unfold tensorNorm
  apply congrArg (fun s : ℝ => s ^ (1 / p))
  rw [List.map_map, List.map_flatten, List.sum_flatten, List.map_map]
  apply congrArg List.sum
  apply List.map_congr_left
  intro c _
  show |tensorNorm c p| ^ p = (List.sum ∘ List.map (fun v => |v| ^ p)) c
  have hS : 0 ≤ ((c.map (fun v => |v| ^ p)).sum) := by
    apply List.sum_nonneg
    intro a ha
    simp only [List.mem_map] at ha
    obtain ⟨v, _, rfl⟩ := ha
    exact Real.rpow_nonneg (abs_nonneg v) p
  rw [abs_of_nonneg (tensorNorm_nonneg c p)]
  show (((c.map (fun v => |v| ^ p)).sum) ^ (1 / p)) ^ p = _
  rw [← Real.rpow_mul hS, one_div_mul_cancel hp0, Real.rpow_one]
  rfl

/-- Witness for C7 at the spec's example `tensor_iter_norm([[3,4]], ord=2)`. -/
theorem tensor_iter_norm_concat_witness :
    ((1 : ℝ) ≤ 2 ∧ [[(3 : ℝ), 4]] ≠ [])
      ∧ tensor_iter_norm [[(3 : ℝ), 4]] 2
          = Except.ok (tensorNorm ([[(3 : ℝ), 4]] : List (List ℝ)).flatten 2) :=
  ⟨⟨by norm_num, by simp⟩, tensor_iter_norm_concat [[(3 : ℝ), 4]] 2 (by norm_num) (by simp)⟩

/-- Squared Euclidean distance between two feature vectors (sum of
squared coordinate differences over all feature dimensions). -/
def sqDist [Fintype ι] (a b : ι → ℚ) : ℚ :=
  ∑ i, (a i - b i) ^ 2

/-- `th.linalg.vector_norm(u - v, dim=non_batch_dimensions, ord=2)`: the
Euclidean distance between a query row and a reference row. -/
noncomputable def vecDist [Fintype ι] (a b : ι → ℚ) : ℝ :=
  Real.sqrt ((sqDist a b : ℚ) : ℝ)

/-- `th.kthvalue(row, k)`: the `k`-th smallest entry of a row
(1-indexed), modelled by sorting the row in nondecreasing order. -/
noncomputable def kthValue (l : List ℝ) (k : ℕ) : ℝ :=
  (l.mergeSort (fun a b => decide (a ≤ b))).getD (k - 1) 0

/-- Embedding of `compute_state_entropy` from `imitation/util/util.py`:
for each query row, distances to the reference rows are computed in
chunks of `batch_size = 500` reference rows
(`all_obs[idx*500:(idx+1)*500]` for `idx in range(len(all_obs)//500+1)`),
concatenated along dim 1, and `th.kthvalue(·, k=k+1, dim=1)` of the
resulting row is returned. -/
noncomputable def compute_state_entropy [Fintype ι] (obs all_obs : List (ι → ℚ))
    (k : ℕ) : List ℝ :=
  let batch_size : ℕ := 500
  obs.map (fun q =>
    kthValue
      (((List.range (all_obs.length / batch_size + 1)).map
        (fun idx => ((all_obs.drop (idx * batch_size)).take batch_size).map
          (fun r => vecDist q r))).flatten)
      (k + 1))

/-- Modelled from the claim's wording (for comparison with the code):
"the Euclidean distance from that row to its k-th nearest neighbor among
the rows of `all_obs`", i.e. the `k`-th smallest of the distances from
the query row to all reference rows. -/
noncomputable def kthNearestDist [Fintype ι] (q : ι → ℚ) (refs : List (ι → ℚ))
    (k : ℕ) : ℝ :=
  kthValue (refs.map (fun r => vecDist q r)) k

theorem flatten_chunks_aux {α : Type} (c : ℕ) :
    ∀ (n : ℕ) (l : List α), l.length ≤ c * n →
      ((List.range n).map (fun idx => (l.drop (idx * c)).take c)).flatten = l := by
  intro n
  induction n with
  | zero =>
      intro l hl
      have : l = [] := by
        apply List.eq_nil_of_length_eq_zero
        omega
      simp [this]
  | succ m ih =>
      intro l hl
      rw [List.range_succ_eq_map, List.map_cons, List.flatten_cons, List.map_map]
      have hshift : ∀ i : ℕ,
          ((List.drop (Nat.succ i * c) l).take c)
            = (((l.drop c).drop (i * c)).take c) := by
        intro i
        rw [List.drop_drop]
        congr 1
        simp [Nat.succ_eq_add_one]
        ring
      have hmap : (List.range m).map
            ((fun idx => (l.drop (idx * c)).take c) ∘ Nat.succ)
          = (List.range m).map (fun idx => (((l.drop c).drop (idx * c)).take c)) := by
        apply List.map_congr_left
        intro i _
        exact hshift i
      have hcm : c * (m + 1) = c * m + c := by ring
      rw [hmap, ih (l.drop c) (by rw [List.length_drop]; omega)]
      simp

/-- Slicing a list into consecutive chunks of size `c > 0`, taking
`length / c + 1` chunks as the code does, and concatenating recovers the
list. -/
theorem flatten_chunks {α : Type} (c : ℕ) (hc : 0 < c) (l : List α) :
    ((List.range (l.length / c + 1)).map (fun idx => (l.drop (idx * c)).take c)).flatten
      = l := by
  apply flatten_chunks_aux
  have h1 := Nat.div_add_mod l.length c
  have h2 := Nat.mod_lt l.length hc
  nlinarith [Nat.div_add_mod l.length c]

/-- Amended claim C5: `compute_state_entropy` returns, for each query
row, the `(k+1)`-th smallest distance to the reference rows (the code
calls `th.kthvalue` with `k+1`, which equals the distance to the k-th
nearest neighbor only when the query row itself occurs among the
references); the chunked computation over 500-row blocks collapses to
the direct computation over all reference rows. -/
theorem compute_state_entropy_kth [Fintype ι] (obs all_obs : List (ι → ℚ)) (k : ℕ)
    (hk : k + 1 ≤ all_obs.length) :
    compute_state_entropy obs all_obs k
      = obs.map (fun q => kthValue (all_obs.map (fun r => vecDist q r)) (k + 1)) := by
  unfold compute_state_entropy
  apply List.map_congr_left
  intro q _
  apply congrArg (fun l => kthValue l (k + 1))
  have hmm : (List.range (all_obs.length / 500 + 1)).map
        (fun idx => ((all_obs.drop (idx * 500)).take 500).map (fun r => vecDist q r))
      = ((List.range (all_obs.length / 500 + 1)).map
        (fun idx => (all_obs.drop (idx * 500)).take 500)).map
          (List.map (fun r => vecDist q r)) := by
    rw [List.map_map]
    rfl
  rw [hmm, ← List.map_flatten, flatten_chunks 500 (by norm_num) all_obs]

theorem mergeSort_real_sorted (l : List ℝ) :
    List.Sorted (fun a b : ℝ => a ≤ b) (l.mergeSort (fun a b => decide (a ≤ b))) := by
  have h := @List.sorted_mergeSort ℝ (fun a b : ℝ => decide (a ≤ b))
    (fun a b c hab hbc => by
      simp only [decide_eq_true_eq] at hab hbc ⊢
      exact le_trans hab hbc)
    (fun a b => by
      simp only [Bool.or_eq_true, decide_eq_true_eq]
      exact le_total a b)
    l
  simp only [decide_eq_true_eq] at h
  exact h

theorem mergeSort_real_self (l : List ℝ) (h : List.Sorted (fun a b : ℝ => a ≤ b) l) :
    l.mergeSort (fun a b => decide (a ≤ b)) = l :=
  List.eq_of_perm_of_sorted (List.mergeSort_perm l _) (mergeSort_real_sorted l) h

/-- Counterexample to C5 as stated: with query `[0]`, references
`[1], [2]` and `k = 1` (valid, since `k+1 = 2 ≤ 2`), the code returns the
2nd smallest distance `2`, not the distance `1` to the 1st nearest
neighbor among the reference rows. -/
theorem compute_state_entropy_kth_counterexample :
    compute_state_entropy [fun _ : Unit => (0 : ℚ)]
        [fun _ : Unit => (1 : ℚ), fun _ : Unit => (2 : ℚ)] 1
      ≠ [kthNearestDist (fun _ : Unit => (0 : ℚ))
          [fun _ : Unit => (1 : ℚ), fun _ : Unit => (2 : ℚ)] 1] := by
  have hd1 : vecDist (fun _ : Unit => (0 : ℚ)) (fun _ : Unit => (1 : ℚ)) = 1 := by
    unfold vecDist sqDist
    norm_num
  have hd2 : vecDist (fun _ : Unit => (0 : ℚ)) (fun _ : Unit => (2 : ℚ)) = 2 := by
    unfold vecDist sqDist
    norm_num
    rw [show ((4 : ℝ)) = 2 ^ 2 by norm_num, Real.sqrt_sq (by norm_num : (0 : ℝ) ≤ 2)]
  have hsorted : List.Sorted (fun a b : ℝ => a ≤ b) [(1 : ℝ), 2] := by
    simp [List.sorted_cons]
  have hms : List.mergeSort [(1 : ℝ), 2] (fun a b => decide (a ≤ b)) = [1, 2] :=
    mergeSort_real_self _ hsorted
  have hlhs : compute_state_entropy [fun _ : Unit => (0 : ℚ)]
      [fun _ : Unit => (1 : ℚ), fun _ : Unit => (2 : ℚ)] 1 = [2] := by
    unfold compute_state_entropy
    simp only [List.map_cons, List.map_nil]
    rw [show List.length [fun _ : Unit => (1 : ℚ), fun _ : Unit => (2 : ℚ)] / 500 + 1 = 1
        from rfl,
      show List.range 1 = [0] from rfl]
    simp only [List.map_cons, List.map_nil, Nat.zero_mul, List.drop_zero,
      List.flatten]
    rw [List.take_of_length_le (by norm_num)]
    simp only [List.map_cons, List.map_nil, List.append_nil]
    rw [hd1, hd2]
    unfold kthValue
    rw [hms]
    rfl
  have hrhs : kthNearestDist (fun _ : Unit => (0 : ℚ))
      [fun _ : Unit => (1 : ℚ), fun _ : Unit => (2 : ℚ)] 1 = 1 := by
    unfold kthNearestDist
    simp only [List.map_cons, List.map_nil]
    rw [hd1, hd2]
    unfold kthValue
    rw [hms]
    rfl
  rw [hlhs, hrhs]
  intro habs
  have : (2 : ℝ) = 1 := by
    injection habs
  norm_num at this

/-- Witness for the amended C5 at the same concrete input. -/
theorem compute_state_entropy_kth_witness :
    (1 + 1 ≤ List.length [fun _ : Unit => (1 : ℚ), fun _ : Unit => (2 : ℚ)])
      ∧ compute_state_entropy [fun _ : Unit => (0 : ℚ)]
          [fun _ : Unit => (1 : ℚ), fun _ : Unit => (2 : ℚ)] 1
        = [fun _ : Unit => (0 : ℚ)].map (fun q =>
            kthValue ([fun _ : Unit => (1 : ℚ), fun _ : Unit => (2 : ℚ)].map
              (fun r => vecDist q r)) (1 + 1)) :=
  ⟨by norm_num,
    compute_state_entropy_kth [fun _ : Unit => (0 : ℚ)]
      [fun _ : Unit => (1 : ℚ), fun _ : Unit => (2 : ℚ)] 1 (by norm_num)⟩

theorem real_add_rpow_le (x y p : ℝ) (hx : 0 ≤ x) (hy : 0 ≤ y) (hp : 1 ≤ p) :
    x ^ p + y ^ p ≤ (x + y) ^ p := by
  have h := NNReal.add_rpow_le_rpow_add x.toNNReal y.toNNReal hp
  have hx1 : ((x.toNNReal : ℝ)) = x := Real.coe_toNNReal x hx
  have hy1 : ((y.toNNReal : ℝ)) = y := Real.coe_toNNReal y hy
  have h2 := NNReal.coe_le_coe.mpr h
  simp only [NNReal.coe_add, NNReal.coe_rpow, hx1, hy1] at h2
  exact h2

/-- For `p ≥ 1` the gap `a^p - (a-1)^p` is at least 1 once `a ≥ 1`
(superadditivity of `t ^ p`). -/
theorem rpow_gap_ge_one (p a : ℝ) (hp : 1 ≤ p) (ha : 1 ≤ a) :
    (a - 1) ^ p + 1 ≤ a ^ p := by
  have h := real_add_rpow_le (a - 1) 1 p (by linarith) zero_le_one hp
  rw [Real.one_rpow] at h
  have : a - 1 + 1 = a := by ring
  rw [this] at h
  exact h

theorem fract_cast_nonneg (v : ℚ) : 0 ≤ ((Int.fract v : ℚ) : ℝ) := by
  have h := Int.fract_nonneg v
  exact_mod_cast h

theorem fract_cast_lt_one (v : ℚ) : ((Int.fract v : ℚ) : ℝ) < 1 := by
  have h := Int.fract_lt_one v
  exact_mod_cast h

theorem ratCast_floor_fract (v : ℚ) :
    ((v : ℚ) : ℝ) = ((⌊v⌋ : ℤ) : ℝ) + ((Int.fract v : ℚ) : ℝ) := by
  have h : (⌊v⌋ : ℚ) + Int.fract v = v := Int.floor_add_fract v
  conv_lhs => rw [← h]
  push_cast
  ring

/-- The rounding-error term of the floor: `|⌊v⌋ - v|^p = fract(v)^p`. -/
theorem term_at_floor (p : ℝ) (v : ℚ) :
    |((⌊v⌋ : ℤ) : ℝ) - (v : ℝ)| ^ p = ((Int.fract v : ℚ) : ℝ) ^ p := by
  rw [ratCast_floor_fract v,
    show ((⌊v⌋ : ℤ) : ℝ) - (((⌊v⌋ : ℤ) : ℝ) + ((Int.fract v : ℚ) : ℝ))
        = -((Int.fract v : ℚ) : ℝ) by ring,
    abs_neg, abs_of_nonneg (fract_cast_nonneg v)]

/-- The rounding-error term of the incremented floor:
`|⌊v⌋+1 - v|^p = (1 - fract(v))^p`. -/
theorem term_at_floor_add_one (p : ℝ) (v : ℚ) :
    |((⌊v⌋ + 1 : ℤ) : ℝ) - (v : ℝ)| ^ p = (1 - ((Int.fract v : ℚ) : ℝ)) ^ p := by
  rw [ratCast_floor_fract v,
    show ((⌊v⌋ + 1 : ℤ) : ℝ) - (((⌊v⌋ : ℤ) : ℝ) + ((Int.fract v : ℚ) : ℝ))
        = 1 - ((Int.fract v : ℚ) : ℝ) by push_cast; ring,
    abs_of_nonneg (by linarith [fract_cast_lt_one v])]

/-- Decrementing a coordinate that sits at least two above the floor
lowers its error term by at least 1. -/
theorem decr_term (p : ℝ) (hp : 1 ≤ p) (v : ℚ) (t : ℤ) (ht : ⌊v⌋ + 2 ≤ t) :
    |((t - 1 : ℤ) : ℝ) - (v : ℝ)| ^ p + 1 ≤ |((t : ℤ) : ℝ) - (v : ℝ)| ^ p := by
  have hf : (v : ℝ) < ((⌊v⌋ : ℤ) : ℝ) + 1 := by
    have h := Int.lt_floor_add_one v
    push_cast
    exact_mod_cast h
  have htr : ((⌊v⌋ : ℤ) : ℝ) + 2 ≤ ((t : ℤ) : ℝ) := by exact_mod_cast ht
  have ha : 1 ≤ ((t : ℤ) : ℝ) - (v : ℝ) := by linarith
  rw [show ((t - 1 : ℤ) : ℝ) - (v : ℝ) = (((t : ℤ) : ℝ) - (v : ℝ)) - 1 by push_cast; ring,
    abs_of_nonneg (show (0 : ℝ) ≤ ((t : ℤ) : ℝ) - (v : ℝ) - 1 by linarith),
    abs_of_nonneg (show (0 : ℝ) ≤ ((t : ℤ) : ℝ) - (v : ℝ) by linarith)]
  exact rpow_gap_ge_one p _ hp ha

/-- Incrementing a coordinate that sits strictly below the floor lowers
its error term by at least 1. -/
theorem incr_term (p : ℝ) (hp : 1 ≤ p) (v : ℚ) (t : ℤ) (ht : t ≤ ⌊v⌋ - 1) :
    |((t + 1 : ℤ) : ℝ) - (v : ℝ)| ^ p + 1 ≤ |((t : ℤ) : ℝ) - (v : ℝ)| ^ p := by
  have hf : ((⌊v⌋ : ℤ) : ℝ) ≤ (v : ℝ) := by exact_mod_cast Int.floor_le v
  have htr : ((t : ℤ) : ℝ) ≤ ((⌊v⌋ : ℤ) : ℝ) - 1 := by exact_mod_cast ht
  have hb : 1 ≤ (v : ℝ) - ((t : ℤ) : ℝ) := by linarith
  rw [abs_sub_comm (((t + 1 : ℤ) : ℝ)) ((v : ℝ)), abs_sub_comm (((t : ℤ) : ℝ)) ((v : ℝ)),
    show (v : ℝ) - ((t + 1 : ℤ) : ℝ) = ((v : ℝ) - ((t : ℤ) : ℝ)) - 1 by push_cast; ring,
    abs_of_nonneg (show (0 : ℝ) ≤ (v : ℝ) - ((t : ℤ) : ℝ) - 1 by linarith),
    abs_of_nonneg (show (0 : ℝ) ≤ (v : ℝ) - ((t : ℤ) : ℝ) by linarith)]
  exact rpow_gap_ge_one p _ hp hb

/-- Core exchange inequality: moving one unit from a coordinate above its
target to a coordinate below it never increases the summed error, given
the greedy property of the selection (the fractional part at a
non-selected coordinate never exceeds the one at a selected coordinate). -/
theorem term_pair_le (p : ℝ) (hp : 1 ≤ p) (vi vj : ℚ) (ti tj : ℤ)
    (hci : ⌊vi⌋ + 2 ≤ ti ∨ ti = ⌊vi⌋ + 1)
    (hcj : tj ≤ ⌊vj⌋ - 1 ∨ tj = ⌊vj⌋)
    (hfr : ti = ⌊vi⌋ + 1 → tj = ⌊vj⌋ → Int.fract vi ≤ Int.fract vj) :
    |((ti - 1 : ℤ) : ℝ) - (vi : ℝ)| ^ p + |((tj + 1 : ℤ) : ℝ) - (vj : ℝ)| ^ p
      ≤ |((ti : ℤ) : ℝ) - (vi : ℝ)| ^ p + |((tj : ℤ) : ℝ) - (vj : ℝ)| ^ p := by
  have hp0 : (0 : ℝ) ≤ p := by linarith
  rcases hci with hgi | hbi
  · rcases hcj with hgj | hbj
    · have h1 := decr_term p hp vi ti hgi
      have h2 := incr_term p hp vj tj hgj
      linarith
    · subst hbj
      have h1 := decr_term p hp vi ti hgi
      have e1 : |((⌊vj⌋ + 1 : ℤ) : ℝ) - (vj : ℝ)| ^ p
          = (1 - ((Int.fract vj : ℚ) : ℝ)) ^ p := term_at_floor_add_one p vj
      have e2 : |((⌊vj⌋ : ℤ) : ℝ) - (vj : ℝ)| ^ p
          = ((Int.fract vj : ℚ) : ℝ) ^ p := term_at_floor p vj
      have b1 : (1 - ((Int.fract vj : ℚ) : ℝ)) ^ p ≤ 1 :=
        Real.rpow_le_one (by linarith [fract_cast_lt_one vj])
          (by linarith [fract_cast_nonneg vj]) hp0
      have b2 : 0 ≤ ((Int.fract vj : ℚ) : ℝ) ^ p :=
        Real.rpow_nonneg (fract_cast_nonneg vj) p
      rw [e1, e2]
      linarith
  · subst hbi
    rcases hcj with hgj | hbj
    · have h2 := incr_term p hp vj tj hgj
      have e1 : |((⌊vi⌋ + 1 - 1 : ℤ) : ℝ) - (vi : ℝ)| ^ p
          = ((Int.fract vi : ℚ) : ℝ) ^ p := by
        rw [show (⌊vi⌋ + 1 - 1 : ℤ) = ⌊vi⌋ by ring]
        exact term_at_floor p vi
      have e2 : |((⌊vi⌋ + 1 : ℤ) : ℝ) - (vi : ℝ)| ^ p
          = (1 - ((Int.fract vi : ℚ) : ℝ)) ^ p := term_at_floor_add_one p vi
      have b1 : ((Int.fract vi : ℚ) : ℝ) ^ p ≤ 1 :=
        Real.rpow_le_one (fract_cast_nonneg vi)
          (by linarith [fract_cast_lt_one vi]) hp0
      have b2 : 0 ≤ (1 - ((Int.fract vi : ℚ) : ℝ)) ^ p :=
        Real.rpow_nonneg (by linarith [fract_cast_lt_one vi]) p
      rw [e1, e2]
      linarith
    · subst hbj
      have hr : Int.fract vi ≤ Int.fract vj := hfr rfl rfl
      have hrc : ((Int.fract vi : ℚ) : ℝ) ≤ ((Int.fract vj : ℚ) : ℝ) := by exact_mod_cast hr
      have e1 : |((⌊vi⌋ + 1 - 1 : ℤ) : ℝ) - (vi : ℝ)| ^ p
          = ((Int.fract vi : ℚ) : ℝ) ^ p := by
        rw [show (⌊vi⌋ + 1 - 1 : ℤ) = ⌊vi⌋ by ring]
        exact term_at_floor p vi
      have e2 : |((⌊vi⌋ + 1 : ℤ) : ℝ) - (vi : ℝ)| ^ p
          = (1 - ((Int.fract vi : ℚ) : ℝ)) ^ p := term_at_floor_add_one p vi
      have e3 : |((⌊vj⌋ + 1 : ℤ) : ℝ) - (vj : ℝ)| ^ p
          = (1 - ((Int.fract vj : ℚ) : ℝ)) ^ p := term_at_floor_add_one p vj
      have e4 : |((⌊vj⌋ : ℤ) : ℝ) - (vj : ℝ)| ^ p
          = ((Int.fract vj : ℚ) : ℝ) ^ p := term_at_floor p vj
      have a1 : ((Int.fract vi : ℚ) : ℝ) ^ p ≤ ((Int.fract vj : ℚ) : ℝ) ^ p :=
        Real.rpow_le_rpow (fract_cast_nonneg vi) hrc hp0
      have a2 : (1 - ((Int.fract vj : ℚ) : ℝ)) ^ p ≤ (1 - ((Int.fract vi : ℚ) : ℝ)) ^ p :=
        Real.rpow_le_rpow (by linarith [fract_cast_lt_one vj]) (by linarith) hp0
      rw [e1, e2, e3, e4]
      linarith

/-- The rounding produced by a selection `S` of coordinates to round up:
`⌊x i⌋`, plus one on `S`. -/
def oricVec {n : ℕ} (x : Fin n → ℚ) (S : Finset (Fin n)) : Fin n → ℤ :=
  fun i => ⌊x i⌋ + (if i ∈ S then 1 else 0)

/-- The `p`-th power of the `Lp` rounding error of an integer vector `y`
against the real vector `x`. -/
noncomputable def lpPowCost {n : ℕ} (p : ℝ) (x : Fin n → ℚ) (y : Fin n → ℤ) : ℝ :=
  ∑ i, |((y i : ℤ) : ℝ) - ((x i : ℚ) : ℝ)| ^ p

theorem sum_split_two {M : Type} [AddCommMonoid M] {n : ℕ} (i j : Fin n) (hij : i ≠ j)
    (f : Fin n → M) :
    (∑ t, f t) = f i + (f j + ∑ t ∈ (Finset.univ.erase i).erase j, f t) := by
  have hj : j ∈ Finset.univ.erase i :=
    Finset.mem_erase.mpr ⟨Ne.symm hij, Finset.mem_univ j⟩
  rw [Finset.add_sum_erase _ f hj, Finset.add_sum_erase _ f (Finset.mem_univ i)]

/-- Any selection that rounds up a set of coordinates whose fractional
parts dominate all unselected coordinates minimizes the summed `p`-th
power rounding error among integer vectors of the same sum. -/
theorem greedy_min {n : ℕ} (x : Fin n → ℚ) (S : Finset (Fin n)) (p : ℝ) (hp : 1 ≤ p)
    (hgreedy : ∀ i j : Fin n, i ∉ S → j ∈ S → Int.fract (x i) ≤ Int.fract (x j)) :
    ∀ (N : ℕ) (y : Fin n → ℤ),
      (∑ i, (y i - oricVec x S i).natAbs) = N →
      (∑ i, y i) = (∑ i, oricVec x S i) →
      lpPowCost p x (oricVec x S) ≤ lpPowCost p x y := by
  intro N
  induction N using Nat.strong_induction_on with
  | _ N ih =>
    intro y hN hsum
    by_cases hyz : ∀ t, y t = oricVec x S t
    · have hfe : y = oricVec x S := funext hyz
      rw [hfe]
    · push_neg at hyz
      obtain ⟨t0, ht0⟩ := hyz
      have hex_pos : ∃ i, oricVec x S i < y i := by
        by_contra hno
        push_neg at hno
        have hstrict : y t0 < oricVec x S t0 := lt_of_le_of_ne (hno t0) ht0
        have hlt : (∑ t, y t) < ∑ t, oricVec x S t :=
          Finset.sum_lt_sum (fun t _ => hno t) ⟨t0, Finset.mem_univ t0, hstrict⟩
        exact absurd hsum (ne_of_lt hlt)
      have hex_neg : ∃ j, y j < oricVec x S j := by
        by_contra hno
        push_neg at hno
        have hstrict : oricVec x S t0 < y t0 := lt_of_le_of_ne (hno t0) (Ne.symm ht0)
        have hlt : (∑ t, oricVec x S t) < ∑ t, y t :=
          Finset.sum_lt_sum (fun t _ => hno t) ⟨t0, Finset.mem_univ t0, hstrict⟩
        exact absurd hsum (ne_of_gt hlt)
      obtain ⟨i, hi⟩ := hex_pos
      obtain ⟨j, hj⟩ := hex_neg
      have hij : i ≠ j := by
        intro hh
        rw [hh] at hi
        omega
      set y2 : Fin n → ℤ :=
        Function.update (Function.update y i (y i - 1)) j (y j + 1) with hy2def
      have hy2i : y2 i = y i - 1 := by
        rw [hy2def, Function.update_noteq hij, Function.update_same]
      have hy2j : y2 j = y j + 1 := by
        rw [hy2def, Function.update_same]
      have hy2other : ∀ t, t ≠ i → t ≠ j → y2 t = y t := by
        intro t hti htj
        rw [hy2def, Function.update_noteq htj, Function.update_noteq hti]
      have hrest : ∀ {M : Type} [AddCommMonoid M] (g : Fin n → ℤ → M),
          (∑ t ∈ (Finset.univ.erase i).erase j, g t (y2 t))
            = ∑ t ∈ (Finset.univ.erase i).erase j, g t (y t) := by
        intro M _ g
        apply Finset.sum_congr rfl
        intro t ht
        have h1 : t ≠ j := (Finset.mem_erase.mp ht).1
        have h2 : t ≠ i := (Finset.mem_erase.mp (Finset.mem_erase.mp ht).2).1
        rw [hy2other t h2 h1]
      have hsum2 : (∑ t, y2 t) = ∑ t, y t := by
        rw [sum_split_two i j hij y2, sum_split_two i j hij y, hy2i, hy2j,
          hrest (fun _ v => v)]
        ring
      have hNa : (y2 i - oricVec x S i).natAbs + 1 = (y i - oricVec x S i).natAbs := by
        rw [hy2i]
        omega
      have hNb : (y2 j - oricVec x S j).natAbs + 1 = (y j - oricVec x S j).natAbs := by
        rw [hy2j]
        omega
      have hN2 : (∑ t, (y2 t - oricVec x S t).natAbs) + 2 = N := by
        rw [sum_split_two i j hij (fun t => (y2 t - oricVec x S t).natAbs)]
        rw [sum_split_two i j hij (fun t => (y t - oricVec x S t).natAbs)] at hN
        rw [hrest (fun t v => (v - oricVec x S t).natAbs)]
        omega
      have hcost2 : lpPowCost p x y2 ≤ lpPowCost p x y := by
        rw [lpPowCost, lpPowCost, sum_split_two i j hij
            (fun t => |((y2 t : ℤ) : ℝ) - ((x t : ℚ) : ℝ)| ^ p),
          sum_split_two i j hij (fun t => |((y t : ℤ) : ℝ) - ((x t : ℚ) : ℝ)| ^ p),
          hrest (fun t v => |((v : ℤ) : ℝ) - ((x t : ℚ) : ℝ)| ^ p)]
        have hci : ⌊x i⌋ + 2 ≤ y i ∨ y i = ⌊x i⌋ + 1 := by
          have hzi : ⌊x i⌋ ≤ oricVec x S i := by
            rw [oricVec]
            split <;> omega
          omega
        have hcj : y j ≤ ⌊x j⌋ - 1 ∨ y j = ⌊x j⌋ := by
          have hzj : oricVec x S j ≤ ⌊x j⌋ + 1 := by
            rw [oricVec]
            split <;> omega
          omega
        have hfr : y i = ⌊x i⌋ + 1 → y j = ⌊x j⌋ → Int.fract (x i) ≤ Int.fract (x j) := by
          intro hyi hyj
          have hiS : i ∉ S := by
            intro hmem
            rw [oricVec, if_pos hmem] at hi
            omega
          have hjS : j ∈ S := by
            by_contra hmem
            rw [oricVec, if_neg hmem] at hj
            omega
          exact hgreedy i j hiS hjS
        have hpair := term_pair_le p hp (x i) (x j) (y i) (y j) hci hcj hfr
        have hti : ((y2 i : ℤ) : ℝ) = ((y i - 1 : ℤ) : ℝ) := by rw [hy2i]
        have htj : ((y2 j : ℤ) : ℝ) = ((y j + 1 : ℤ) : ℝ) := by rw [hy2j]
        rw [hti, htj]
        linarith
      have hcostz : lpPowCost p x (oricVec x S) ≤ lpPowCost p x y2 := by
        apply ih (∑ t, (y2 t - oricVec x S t).natAbs) (by omega) y2 rfl
        rw [hsum2]
        exact hsum
      linarith

theorem list_sum_getD {M : Type} [AddCommMonoid M] (l : List M) (n : ℕ)
    (h : l.length = n) : l.sum = ∑ i : Fin n, l.getD i.val 0 := by
  subst h
  conv_lhs => rw [← List.ofFn_get l]
  rw [List.sum_ofFn]
  apply Finset.sum_congr rfl
  intro i _
  rw [List.getD_eq_getElem _ _ i.isLt]
  rfl

theorem list_map_sum_fin {α M : Type} [AddCommMonoid M] (l : List α) (f : α → M) :
    (l.map f).sum = ∑ i : Fin l.length, f (l.get i) := by
  conv_lhs => rw [← List.ofFn_get l]
  rw [List.map_ofFn, List.sum_ofFn]
  rfl

theorem shortfallList_sum (x : List ℚ) :
    (shortfallList x).sum = x.sum - (((x.map (fun v => ⌊v⌋)).sum : ℤ) : ℚ) := by
  induction x with
  | nil => simp [shortfallList]
  | cons a t ih =>
      simp only [shortfallList, List.map_cons, List.sum_cons] at ih ⊢
      push_cast
      push_cast at ih
      linarith

theorem shortfallList_nonneg (x : List ℚ) : 0 ≤ (shortfallList x).sum := by
  apply List.sum_nonneg
  intro q hq
  simp only [shortfallList, List.mem_map] at hq
  obtain ⟨v, hv, rfl⟩ := hq
  rw [Int.self_sub_floor]
  exact Int.fract_nonneg v

theorem shortfallList_le_length (x : List ℚ) : (shortfallList x).sum ≤ (x.length : ℚ) := by
  induction x with
  | nil => simp [shortfallList]
  | cons a t ih =>
      simp only [shortfallList, List.map_cons, List.sum_cons, List.length_cons] at ih ⊢
      have h1 : a - (⌊a⌋ : ℚ) ≤ 1 := by
        rw [Int.self_sub_floor]
        exact le_of_lt (Int.fract_lt_one a)
      push_cast
      linarith

/-- When the input sums to the integer `m`, the rounding in
`total_shortfall` is exact: it equals `m` minus the sum of the floors,
and in particular it does not exceed the length. -/
theorem oricK_eq (x : List ℚ) (m : ℤ) (hx : x.sum = (m : ℚ)) :
    ((oricK x : ℕ) : ℤ) = m - (x.map (fun v => ⌊v⌋)).sum ∧ oricK x ≤ x.length := by
  have hsf : (shortfallList x).sum = ((m - (x.map (fun v => ⌊v⌋)).sum : ℤ) : ℚ) := by
    rw [shortfallList_sum, hx]
    push_cast
    ring
  have hnn : (0 : ℚ) ≤ ((m - (x.map (fun v => ⌊v⌋)).sum : ℤ) : ℚ) := by
    rw [← hsf]
    exact shortfallList_nonneg x
  have hnn2 : 0 ≤ m - (x.map (fun v => ⌊v⌋)).sum := by exact_mod_cast hnn
  have hle : ((m - (x.map (fun v => ⌊v⌋)).sum : ℤ) : ℚ) ≤ (x.length : ℚ) := by
    rw [← hsf]
    exact shortfallList_le_length x
  have hle2 : m - (x.map (fun v => ⌊v⌋)).sum ≤ (x.length : ℤ) := by exact_mod_cast hle
  have hK : oricK x = (m - (x.map (fun v => ⌊v⌋)).sum).toNat := by
    rw [oricK, hsf, npRound_intCast]
  constructor
  · rw [hK]
    omega
  · rw [hK]
    omega

theorem length_oricSel (x : List ℚ) (h : oricK x ≤ x.length) :
    (oricSel x).length = oricK x := by
  rw [oricSel, List.length_take, length_oricIdx]
  omega

theorem oricSel_nodup (x : List ℚ) : (oricSel x).Nodup :=
  (List.take_sublist _ _).nodup (oricIdx_nodup x)

theorem shortfallList_getD (x : List ℚ) (t : ℕ) (h : t < x.length) :
    (shortfallList x).getD t 0 = Int.fract (x.getD t 0) := by
  have h2 : t < (shortfallList x).length := by simpa [shortfallList] using h
  rw [List.getD_eq_getElem _ _ h2, List.getD_eq_getElem _ _ h]
  simp only [shortfallList, List.getElem_map]
  rw [Int.self_sub_floor]

theorem oricIdx_pairwise (x : List ℚ) :
    List.Pairwise (fun a b => (shortfallList x).getD b 0 ≤ (shortfallList x).getD a 0)
      (oricIdx x) := by
  have h := @List.sorted_mergeSort ℕ
    (fun i j => decide ((shortfallList x).getD j 0 ≤ (shortfallList x).getD i 0))
    (fun a b c hab hbc => by
      simp only [decide_eq_true_eq] at hab hbc ⊢
      exact le_trans hbc hab)
    (fun a b => by
      simp only [Bool.or_eq_true, decide_eq_true_eq]
      exact le_total _ _)
    (List.range x.length)
  rw [oricIdx]
  simpa [decide_eq_true_eq] using h

/-- Greedy property of the selection: every selected index has shortfall
at least as large as every unselected index. -/
theorem oricSel_greedy (x : List ℚ) (i j : ℕ) (hi : i < x.length)
    (hiS : i ∉ oricSel x) (hjS : j ∈ oricSel x) :
    (shortfallList x).getD i 0 ≤ (shortfallList x).getD j 0 := by
  have hmem : i ∈ oricIdx x := (mem_oricIdx x i).mpr hi
  have hpw := oricIdx_pairwise x
  rw [← List.take_append_drop (oricK x) (oricIdx x)] at hpw hmem
  rw [List.pairwise_append] at hpw
  have hdrop : i ∈ (oricIdx x).drop (oricK x) := by
    rcases List.mem_append.mp hmem with h | h
    · exact absurd h hiS
    · exact h
  exact hpw.2.2 j hjS i hdrop

theorem card_filter_val_mem (n : ℕ) (l : List ℕ) (hn : ∀ a ∈ l, a < n)
    (hd : l.Nodup) :
    (Finset.univ.filter (fun i : Fin n => i.val ∈ l)).card = l.length := by
  rw [← List.toFinset_card_of_nodup hd]
  apply Finset.card_bij (fun (i : Fin n) _ => i.val)
  · intro a ha
    simp only [Finset.mem_filter] at ha
    simpa [List.mem_toFinset] using ha.2
  · intro a ha b hb hab
    exact Fin.ext hab
  · intro b hb
    simp only [List.mem_toFinset] at hb
    exact ⟨⟨b, hn b hb⟩, by simp [Finset.mem_filter, hb], rfl⟩

/-- The vector `x` viewed as a function on its index set. -/
def finOf (x : List ℚ) : Fin x.length → ℚ :=
  fun i => x.get i

/-- The set of incremented positions of `oric x`, as a finite set of
indices. -/
def selFinset (x : List ℚ) : Finset (Fin x.length) :=
  Finset.univ.filter (fun i => i.val ∈ oricSel x)

/-- The `Lp` norm of the rounding error of an integer vector `y` against
the real vector `x` (both of the same length). -/
noncomputable def lpErr (p : ℝ) (x : List ℚ) (y : List ℤ) : ℝ :=
  (∑ i : Fin x.length, |((y.getD i.val 0 : ℤ) : ℝ) - ((x.get i : ℚ) : ℝ)| ^ p) ^ (1 / p)

theorem mem_selFinset (x : List ℚ) (i : Fin x.length) :
    i ∈ selFinset x ↔ i.val ∈ oricSel x := by
  rw [selFinset]
  simp [Finset.mem_filter]

theorem oric_getD_oricVec (x : List ℚ) (i : Fin x.length) :
    (oric x).getD i.val 0 = oricVec (finOf x) (selFinset x) i := by
  rw [oric_getD x i.val i.isLt, oricVec]
  have hg : x.getD i.val 0 = finOf x i := by
    rw [List.getD_eq_getElem _ _ i.isLt]
    rfl
  rw [hg]
  congr 1
  by_cases h : i.val ∈ oricSel x
  · rw [if_pos h, if_pos ((mem_selFinset x i).mpr h)]
  · rw [if_neg h, if_neg (fun hc => h ((mem_selFinset x i).mp hc))]

/-- Claim C1: on an input with integer sum `m`, `oric` returns an integer
vector of the same length, with the same sum, whose entries are each the
floor or the floor plus one of the corresponding input entry, and which
minimizes the `Lp` rounding-error norm simultaneously for every `p ≥ 1`
over all integer vectors of that length and sum. -/
theorem oric_correct_optimal (x : List ℚ) (m : ℤ) (hx : x.sum = (m : ℚ)) :
    (oric x).length = x.length
      ∧ (oric x).sum = m
      ∧ (∀ i : ℕ, i < x.length →
          (oric x).getD i 0 = ⌊x.getD i 0⌋ ∨ (oric x).getD i 0 = ⌊x.getD i 0⌋ + 1)
      ∧ (∀ p : ℝ, 1 ≤ p → ∀ y : List ℤ, y.length = x.length → y.sum = m →
          lpErr p x (oric x) ≤ lpErr p x y) := by
  obtain ⟨hKZ, hKle⟩ := oricK_eq x m hx
  have hcard : (selFinset x).card = oricK x := by
    rw [selFinset,
      card_filter_val_mem x.length (oricSel x) (fun a ha => mem_oricSel_lt x a ha)
        (oricSel_nodup x),
      length_oricSel x hKle]
  have hsum_floor : (∑ i : Fin x.length, ⌊x.get i⌋) = (x.map (fun v => ⌊v⌋)).sum :=
    (list_map_sum_fin x (fun v => ⌊v⌋)).symm
  have hsum_ite : (∑ i : Fin x.length, (if i ∈ selFinset x then (1 : ℤ) else 0))
      = ((selFinset x).card : ℤ) := by
    rw [Finset.sum_ite_mem, Finset.univ_inter, Finset.sum_const]
    simp
  have hsum_z : (∑ i : Fin x.length, oricVec (finOf x) (selFinset x) i) = m := by
    simp only [oricVec]
    rw [Finset.sum_add_distrib, hsum_ite, hcard]
    have : (∑ i : Fin x.length, ⌊finOf x i⌋) = (x.map (fun v => ⌊v⌋)).sum := hsum_floor
    rw [this]
    omega
  have hlen : (oric x).length = x.length := length_oric x
  have hsum_oric : (oric x).sum = m := by
    rw [list_sum_getD (oric x) x.length hlen,
      Finset.sum_congr rfl (fun i _ => oric_getD_oricVec x i)]
    exact hsum_z
  refine ⟨hlen, hsum_oric, ?_, ?_⟩
  · intro i hi
    rw [oric_getD x i hi]
    by_cases h : i ∈ oricSel x
    · right
      rw [if_pos h]
    · left
      rw [if_neg h, add_zero]
  · intro p hp y hyl hys
    have hp0 : (0 : ℝ) < p := lt_of_lt_of_le one_pos hp
    have hgreedy : ∀ i j : Fin x.length, i ∉ selFinset x → j ∈ selFinset x →
        Int.fract (finOf x i) ≤ Int.fract (finOf x j) := by
      intro i j hiS hjS
      have h1 : i.val ∉ oricSel x := fun hc => hiS ((mem_selFinset x i).mpr hc)
      have h2 : j.val ∈ oricSel x := (mem_selFinset x j).mp hjS
      have h3 := oricSel_greedy x i.val j.val i.isLt h1 h2
      rw [shortfallList_getD x i.val i.isLt,
        shortfallList_getD x j.val j.isLt] at h3
      have e1 : x.getD i.val 0 = finOf x i := by
        rw [List.getD_eq_getElem _ _ i.isLt]
        rfl
      have e2 : x.getD j.val 0 = finOf x j := by
        rw [List.getD_eq_getElem _ _ j.isLt]
        rfl
      rw [e1, e2] at h3
      exact h3
    have hsum_y : (∑ i : Fin x.length, y.getD i.val 0)
        = ∑ i : Fin x.length, oricVec (finOf x) (selFinset x) i := by
      rw [hsum_z, ← hys]
      exact (list_sum_getD y x.length hyl).symm
    have hmain := greedy_min (finOf x) (selFinset x) p hp hgreedy
      (∑ i : Fin x.length,
        ((fun t : Fin x.length => y.getD t.val 0) i - oricVec (finOf x) (selFinset x) i).natAbs)
      (fun t : Fin x.length => y.getD t.val 0) rfl hsum_y
    have hinner_z : (∑ i : Fin x.length,
          |(((oric x).getD i.val 0 : ℤ) : ℝ) - ((x.get i : ℚ) : ℝ)| ^ p)
        = lpPowCost p (finOf x) (oricVec (finOf x) (selFinset x)) := by
      rw [lpPowCost]
      apply Finset.sum_congr rfl
      intro i _
      rw [oric_getD_oricVec x i]
      rfl
    have hinner_y : (∑ i : Fin x.length,
          |((y.getD i.val 0 : ℤ) : ℝ) - ((x.get i : ℚ) : ℝ)| ^ p)
        = lpPowCost p (finOf x) (fun t : Fin x.length => y.getD t.val 0) := rfl
    rw [lpErr, lpErr, hinner_z, hinner_y]
    apply Real.rpow_le_rpow
    · rw [lpPowCost]
      apply Finset.sum_nonneg
      intro i _
      exact Real.rpow_nonneg (abs_nonneg _) p
    · exact hmain
    · exact le_of_lt (by positivity)

/-- Witness for C1 at the spec's example `oric([1.5, 1.5, 1.0])`. -/
theorem oric_correct_optimal_witness :
    ([(3 : ℚ) / 2, 3 / 2, 1].sum = ((4 : ℤ) : ℚ))
      ∧ ((oric [(3 : ℚ) / 2, 3 / 2, 1]).length = [(3 : ℚ) / 2, 3 / 2, 1].length
        ∧ (oric [(3 : ℚ) / 2, 3 / 2, 1]).sum = 4
        ∧ (∀ i : ℕ, i < [(3 : ℚ) / 2, 3 / 2, 1].length →
            (oric [(3 : ℚ) / 2, 3 / 2, 1]).getD i 0
                = ⌊[(3 : ℚ) / 2, 3 / 2, 1].getD i 0⌋
              ∨ (oric [(3 : ℚ) / 2, 3 / 2, 1]).getD i 0
                = ⌊[(3 : ℚ) / 2, 3 / 2, 1].getD i 0⌋ + 1)
        ∧ (∀ p : ℝ, 1 ≤ p → ∀ y : List ℤ,
            y.length = [(3 : ℚ) / 2, 3 / 2, 1].length → y.sum = 4 →
              lpErr p [(3 : ℚ) / 2, 3 / 2, 1] (oric [(3 : ℚ) / 2, 3 / 2, 1])
                ≤ lpErr p [(3 : ℚ) / 2, 3 / 2, 1] y)) := by
  have hs : [(3 : ℚ) / 2, 3 / 2, 1].sum = ((4 : ℤ) : ℚ) := by
    norm_num
  exact ⟨hs, oric_correct_optimal [(3 : ℚ) / 2, 3 / 2, 1] 4 hs⟩

end ImitationUtil
